import Mathlib

/-!
Shallow embedding of `src/euler67.cpp` (Project Euler Problem 67 solver).

The C++ program defines:
  * class `Triangle`: a vector of rows of ints with the invariant
    `rows_[i].length = i + 1`, mutated only through `append_row`
    (which validates the length and throws `std::invalid_argument`,
    the "InvalidShape" error of the spec) and through the non-const
    `at` accessor (element overwrite);
  * `fold_triangle<T>(tri, make_t, combine_t)`: a bottom-up fold with an
    in-place accumulator, throwing on an empty triangle ("EmptyTriangle");
  * `max_path` and `max_odd_even_path`: two instantiations of the fold;
  * `parse_triangle`: builds a Triangle from the integer values extracted
    from each line of the input, one row per line, via `append_row`;
  * `main`: parses the fixed input file and prints the row count and the
    two path values.

Exceptions are modelled with `Except TriError`; C++ `int` is modelled by
`Int` (no arithmetic in the program can overflow for the intended inputs,
and the spec speaks of integer values).
-/

/-- `Triangle::Row = std::vector<int>`. -/
abbrev Row := List Int

/-- The two error kinds the spec names: `InvalidShape` for the
`std::invalid_argument` thrown by `Triangle::append_row`, `EmptyTriangle`
for the one thrown by `fold_triangle`. -/
inductive TriError where
  | InvalidShape : TriError
  | EmptyTriangle : TriError
deriving DecidableEq, Repr

/-- `class Triangle`: its single data member `rows_`. -/
structure Triangle where
  rows_ : List Row
deriving DecidableEq, Repr

/-- `Triangle::rows()`: read-only access to the rows. -/
def Triangle.rows (t : Triangle) : List Row := t.rows_

/-- `Triangle::height()`: the number of rows. -/
def Triangle.height (t : Triangle) : Nat := t.rows_.length

/-- `Triangle::width()`: defined in the source as equal to the height. -/
def Triangle.width (t : Triangle) : Nat := t.height

/-- `Triangle::at(row, n)` (const version): reads the n'th value of the
row'th row. Out-of-bounds access is undefined in C++; the model totalises
it with 0. -/
def Triangle.at' (t : Triangle) (row n : Nat) : Int :=
  (t.rows_.getD row []).getD n 0

/-- The non-const `Triangle::at(row, n)` used as the target of an
assignment `t.at(r, n) = v`: overwrites one element in place. A C++
in-place `int` write never changes a row's length; out-of-bounds access
is undefined, and `List.set` models it as a no-op. -/
def Triangle.set_at (t : Triangle) (row n : Nat) (v : Int) : Triangle :=
  ⟨t.rows_.set row ((t.rows_.getD row []).set n v)⟩

/-- `Triangle::append_row(row)`: requires `row.size() == height() + 1`,
otherwise throws `std::invalid_argument` (InvalidShape) and leaves the
triangle unmodified; on success appends the row at the back. -/
def Triangle.append_row (t : Triangle) (row : Row) : Except TriError Triangle :=
  if row.length ≠ t.height + 1 then
    .error .InvalidShape
  else
    .ok ⟨t.rows_ ++ [row]⟩

/-- One pass of the inner loop of `fold_triangle`: walking a row left to
right, overwrite `accum[i]` with `combine_t(row[i], accum[i], accum[i+1])`.
The in-place C++ write at position i happens after the old values at i and
i+1 are read, which the recursion mirrors by passing the untouched tail
onward; entries of the accumulator beyond the row's length are left in
place (the C++ code leaves them stale). Reading past the end of the
accumulator is undefined in C++ and never happens for a shape-correct
triangle; the fallback returns the accumulator unchanged. -/
def stepRow {T : Type} (combine_t : Int → T → T → T) : List Int → List T → List T
  | v :: vs, a :: a' :: rest => combine_t v a a' :: stepRow combine_t vs (a' :: rest)
  | _, accum => accum

/-- `fold_triangle<T>(triangle, make_t, combine_t)`: throws
(EmptyTriangle) on a triangle of height 0; otherwise fills the accumulator
by mapping `make_t` over the bottom row, then walks the remaining rows
bottom-up applying the in-place combine pass, and returns `accum.front()`.
`accum.front()` on an empty accumulator is undefined in C++ (it never
happens for a shape-correct triangle); the model totalises it with
`default`. -/
def fold_triangle {T : Type} [Inhabited T] (triangle : Triangle)
    (make_t : Int → T) (combine_t : Int → T → T → T) : Except TriError T :=
  if triangle.height = 0 then
    .error .EmptyTriangle
  else
    match triangle.rows_.reverse with
    | [] => .error .EmptyTriangle
    | bottom :: rest =>
        .ok ((rest.foldl (fun accum row => stepRow combine_t row accum)
               (bottom.map make_t)).headD default)

/-- `max_path`: fold with `leaf i = i` and
`combine i left right = i + max left right`. -/
def max_path (triangle : Triangle) : Except TriError Int :=
  fold_triangle triangle (fun i => i) (fun i left right => i + max left right)

/-- The `is_even` lambda of `max_odd_even_path`: `n % 2 == 0`. (C++ `%`
truncates toward zero and Lean's `Int.emod` is Euclidean, but `n % 2 == 0`
decides evenness identically in both.) -/
def is_even (n : Int) : Bool := n % 2 == 0

/-- `max_odd_even_path`: fold with `leaf i = i` and
`combine i left right = i + max (is_even left ? 0 : left)
(is_even right ? right : 0)`. -/
def max_odd_even_path (triangle : Triangle) : Except TriError Int :=
  fold_triangle triangle (fun i => i)
    (fun i left right =>
      i + max (if is_even left then 0 else left)
              (if is_even right then right else 0))

/-- `parse_triangle`, modelled at the level of the integer values the
stream extraction yields: the input is the list of lines, each line given
as the list of integers the inner `row_stream >> value` loop produces for
it. Each such row is appended in order via `append_row`, whose exception
(InvalidShape) propagates out of the parse. -/
def parse_triangle (lines : List Row) : Except TriError Triangle :=
  lines.foldlM (fun t row => t.append_row row) ⟨[]⟩

/-- `main`, after the input file has been opened, modelled on the list of
lines (each as its extracted integers): parse the triangle, then compute
the values printed — the height, `max_path`, and `max_odd_even_path`.
An uncaught exception anywhere aborts the program, modelled by the
`Except` error propagating to the result. -/
def main_result (lines : List Row) : Except TriError (Nat × Int × Int) :=
  match parse_triangle lines with
  | .error e => .error e
  | .ok t =>
      match max_path t with
      | .error e => .error e
      | .ok m =>
          match max_odd_even_path t with
          | .error e => .error e
          | .ok m2 => .ok (t.height, m, m2)

/-- The class invariant of `Triangle`: `rows_[i].length = i + 1`. -/
def TriShape (rows : List Row) : Prop :=
  ∀ i (h : i < rows.length), (rows.get ⟨i, h⟩).length = i + 1

instance (rows : List Row) : Decidable (TriShape rows) :=
  Nat.decidableBallLT rows.length _

/-- The sum of the entries visited by an apex-to-base path. The path
starts in the first listed row at column c and the list of moves tells,
row by row, whether it steps to the adjacent position below (`false`,
same column) or below-right (`true`, column + 1). -/
def pathValue : List Row → Nat → List Bool → Int
  | [], _, _ => 0
  | row :: _, c, [] => row.getD c 0
  | row :: rest, c, b :: ms =>
      row.getD c 0 + pathValue rest (if b then c + 1 else c) ms

/-- The textbook top-down recurrence for the greatest path sum from
column c of the first listed row to the base. -/
def bestFrom : List Row → Nat → Int
  | [], _ => 0
  | row :: rest, c => row.getD c 0 + max (bestFrom rest c) (bestFrom rest (c + 1))

/-- All entries of all rows are nonnegative. -/
def NonnegRows (rows : List Row) : Prop :=
  ∀ r ∈ rows, ∀ x ∈ r, 0 ≤ x

/-- A mutation that C++ client code can perform on a `Triangle` object:
an `append_row` call (which may be rejected, leaving the object as it
was), or an element overwrite through the non-const `at` accessor. -/
inductive Op where
  | append : Row → Op
  | write : Nat → Nat → Int → Op

/-- The effect of one operation on the (mutable) `Triangle` object: a
rejected `append_row` throws before touching `rows_`, so the state is
unchanged; a successful one appends; a `write` overwrites in place. -/
def applyOp (t : Triangle) : Op → Triangle
  | .append row =>
      match t.append_row row with
      | .ok t' => t'
      | .error _ => t
  | .write r n v => t.set_at r n v

/-- The `Triangle` object obtained from the default-constructed (empty)
one by a sequence of operations. -/
def run (ops : List Op) : Triangle := ops.foldl applyOp ⟨[]⟩

/-- The rows of the list have lengths n, n+1, n+2, ... in order: the shape
of any lower portion of a triangle, read top-down. -/
def ladder : Nat → List Row → Prop
  | _, [] => True
  | n, r :: rs => r.length = n ∧ ladder (n + 1) rs

/-- The value the bottom-up fold computes for position c of the first
listed row, written as the natural top-down recurrence: `make_t` on the
base row, `combine_t` with the two positions below elsewhere. -/
def dp {T : Type} (make_t : Int → T) (combine_t : Int → T → T → T) :
    List Row → Nat → T
  | [], _ => make_t 0
  | [row], c => make_t (row.getD c 0)
  | row :: rest@(_ :: _), c =>
      combine_t (row.getD c 0) (dp make_t combine_t rest c)
        (dp make_t combine_t rest (c + 1))

/-- The specification's row step, as worded in the spec: "the new
accumulator value at position i = combine(row[i], old_accum[i],
old_accum[i+1]) for each position i of that row" — positions past the
row's width become stale and are never read again, so the new accumulator
keeps exactly the row's positions. -/
def specStepRow {T : Type} [Inhabited T] (combine_t : Int → T → T → T)
    (row : Row) (accum : List T) : List T :=
  (List.range row.length).map
    (fun i => combine_t (row.getD i 0) (accum.getD i default)
      (accum.getD (i + 1) default))

/-- The fold recurrence as the specification words it: the accumulator is
initialised by applying `make_leaf` to each bottom-row value left to
right; each row above the bottom, in strictly decreasing row order,
rewrites the accumulator by `specStepRow`; after the top row the result
is the accumulator's first element. An empty Triangle gives the
EmptyTriangle error per the fold contract. -/
def fold_triangle_spec {T : Type} [Inhabited T] (t : Triangle)
    (make_leaf : Int → T) (combine : Int → T → T → T) : Except TriError T :=
  if t.height = 0 then
    .error .EmptyTriangle
  else
    match t.rows_.reverse with
    | [] => .error .EmptyTriangle
    | bottom :: rest =>
        .ok ((rest.foldl (fun accum row => specStepRow combine row accum)
               (bottom.map make_leaf)).headD default)

instance (rows : List Row) : Decidable (NonnegRows rows) := by
  unfold NonnegRows
  infer_instance

/-! ### Preservation of the shape invariant -/

lemma triShape_append (rows : List Row) (row : Row)
    (h : TriShape rows) (hl : row.length = rows.length + 1) :
    TriShape (rows ++ [row]) := by
  intro i hi
  simp only [List.get_eq_getElem]
  rcases Nat.lt_or_ge i rows.length with hcase | hcase
  · rw [List.getElem_append_left hcase]
    have := h i hcase
    simpa [List.get_eq_getElem] using this
  · have hi' : i = rows.length := by
      have : i < rows.length + 1 := by simpa using hi
      omega
    rw [List.getElem_concat_length rows row i hi']
    omega

lemma triShape_set (rows : List Row) (r n : Nat) (v : Int) (h : TriShape rows) :
    TriShape (rows.set r ((rows.getD r []).set n v)) := by
  intro i hi
  simp only [List.get_eq_getElem]
  have hi' : i < rows.length := by simpa using hi
  rw [List.getElem_set]
  by_cases hc : r = i
  · subst hc
    rw [if_pos rfl, List.length_set, List.getD_eq_getElem rows [] hi']
    have := h r hi'
    simpa [List.get_eq_getElem] using this
  · rw [if_neg hc]
    have := h i hi'
    simpa [List.get_eq_getElem] using this

lemma applyOp_shape (t : Triangle) (op : Op) (h : TriShape t.rows_) :
    TriShape (applyOp t op).rows_ := by
  cases op with
  | append row =>
      by_cases hl : row.length = t.height + 1
      · have hok : t.append_row row = .ok ⟨t.rows_ ++ [row]⟩ := by
          simp [Triangle.append_row, hl]
        simp only [applyOp, hok]
        exact triShape_append t.rows_ row h hl
      · have herr : t.append_row row = .error .InvalidShape := by
          simp [Triangle.append_row, hl]
        simpa only [applyOp, herr] using h
  | write r n v =>
      simpa only [applyOp, Triangle.set_at] using triShape_set t.rows_ r n v h

/-- C6: every Triangle reachable from the empty Triangle by any sequence
of operations (successful or rejected `append_row` calls, and element
overwrites via `at`) satisfies the shape invariant
`length(row[i]) == i + 1` for every row index i below the height. -/
theorem reachable_shape_invariant (ops : List Op) : TriShape (run ops).rows_ := by
  have key : ∀ (l : List Op) (t : Triangle),
      TriShape t.rows_ → TriShape (l.foldl applyOp t).rows_ := by
    intro l
    induction l with
    | nil => intro t ht; simpa using ht
    | cons op rest ih => intro t ht; exact ih _ (applyOp_shape t op ht)
  exact key ops ⟨[]⟩ (by decide)

/-- C4: `append_row` succeeds and appends the row exactly when its length
is `height + 1` (and the height then grows by one); otherwise it fails
with InvalidShape and the Triangle object is left entirely unmodified. -/
theorem append_row_spec (t : Triangle) (row : Row) :
    (row.length = t.height + 1 ∧ t.append_row row = .ok ⟨t.rows_ ++ [row]⟩ ∧
      (applyOp t (.append row)).height = t.height + 1) ∨
    (row.length ≠ t.height + 1 ∧ t.append_row row = .error .InvalidShape ∧
      applyOp t (.append row) = t) := by
  by_cases h : row.length = t.height + 1
  · left
    have hok : t.append_row row = .ok ⟨t.rows_ ++ [row]⟩ := by
      simp [Triangle.append_row, h]
    exact ⟨h, hok, by simp [applyOp, hok, Triangle.height]⟩
  · right
    have herr : t.append_row row = .error .InvalidShape := by
      simp [Triangle.append_row, h]
    exact ⟨h, herr, by simp [applyOp, herr]⟩

lemma fold_triangle_ne_empty {T : Type} [Inhabited T] (t : Triangle)
    (make_t : Int → T) (combine_t : Int → T → T → T) (h : t.height ≠ 0) :
    ∃ v, fold_triangle t make_t combine_t = Except.ok v := by
  have hnil : t.rows_.reverse ≠ [] := by
    simp only [ne_eq, List.reverse_eq_nil_iff]
    intro hn
    exact h (by simp [Triangle.height, hn])
  obtain ⟨bottom, rest, hrev⟩ := List.exists_cons_of_ne_nil hnil
  refine ⟨(rest.foldl (fun accum row => stepRow combine_t row accum)
    (bottom.map make_t)).headD default, ?_⟩
  unfold fold_triangle
  rw [if_neg h, hrev]

/-- C5: `fold_triangle` raises EmptyTriangle if and only if the Triangle
has height 0, and on every Triangle of nonzero height it returns a value
without error. -/
theorem fold_triangle_empty_iff {T : Type} [Inhabited T] (t : Triangle)
    (make_t : Int → T) (combine_t : Int → T → T → T) :
    (fold_triangle t make_t combine_t = .error .EmptyTriangle ↔ t.height = 0) ∧
    ((∃ v, fold_triangle t make_t combine_t = .ok v) ↔ 0 < t.height) := by
  by_cases h : t.height = 0
  · simp [fold_triangle, h]
  · obtain ⟨v, hv⟩ := fold_triangle_ne_empty t make_t combine_t h
    rw [hv]
    constructor
    · simp [h]
    · simp [Nat.pos_of_ne_zero h]

/-- C3: `max_odd_even_path` is exactly `fold_triangle` instantiated with
`make_leaf v = v` and
`combine v l r = v + max (is_even l ? 0 : l) (is_even r ? r : 0)`;
on the fixture `[[5],[2,3]]` the left child's accumulated value 2 is even
and the right child's accumulated value 3 is odd, so both contribute 0 and
the result is the apex value 5 alone. -/
theorem max_odd_even_path_eq_fold :
    (∀ t : Triangle,
      max_odd_even_path t =
        fold_triangle t (fun v => v)
          (fun v l r =>
            v + max (if is_even l then 0 else l) (if is_even r then r else 0))) ∧
    max_odd_even_path ⟨[[5], [2, 3]]⟩ = .ok 5 :=
  ⟨fun _ => rfl, rfl⟩

/-- C7: on the Triangle `[[3],[7,4],[2,4,6],[8,5,9,3]]`, `max_path`
returns 23, and that value is attained by the path 3, 7, 4, 9
(moves: left, right, right from the apex). -/
theorem max_path_example :
    max_path ⟨[[3], [7, 4], [2, 4, 6], [8, 5, 9, 3]]⟩ = .ok 23 ∧
    pathValue [[3], [7, 4], [2, 4, 6], [8, 5, 9, 3]] 0 [false, true, true] = 23 :=
  ⟨rfl, by decide⟩

/-- C10: parsing an input with zero lines succeeds with a Triangle of
height 0; `max_path` on that Triangle raises EmptyTriangle, so the whole
program run on an empty (but openable) input ends in the unhandled
EmptyTriangle error instead of producing results. -/
theorem empty_input_unhandled :
    parse_triangle [] = .ok ⟨[]⟩ ∧
    (Triangle.mk []).height = 0 ∧
    max_path ⟨[]⟩ = .error .EmptyTriangle ∧
    main_result [] = .error .EmptyTriangle :=
  ⟨rfl, rfl, rfl, rfl⟩

lemma parse_aux :
    ∀ (lines : List Row) (t : Triangle) (i : Nat), i < lines.length →
      (lines.getD i []).length ≠ t.height + i + 1 →
      List.foldlM (fun t row => Triangle.append_row t row) t lines
        = .error .InvalidShape := by
  intro lines
  induction lines with
  | nil => intro t i hi _; simp at hi
  | cons l ls ih =>
      intro t i hi hbad
      rw [List.foldlM_cons]
      by_cases hl : l.length = t.height + 1
      · have hok : t.append_row l = .ok ⟨t.rows_ ++ [l]⟩ := by
          simp [Triangle.append_row, hl]
        rw [hok]
        show List.foldlM (fun t row => Triangle.append_row t row)
          (⟨t.rows_ ++ [l]⟩ : Triangle) ls = .error .InvalidShape
        cases i with
        | zero => exact absurd (by simpa using hbad) (by simp [hl])
        | succ j =>
            apply ih ⟨t.rows_ ++ [l]⟩ j (by simpa using hi)
            have hb : (ls.getD j []).length ≠ t.height + (j + 1) + 1 := by
              simpa using hbad
            simp only [Triangle.height, List.length_append, List.length_cons,
              List.length_nil] at hb ⊢
            omega
      · have herr : t.append_row l = .error .InvalidShape := by
          simp [Triangle.append_row, hl]
        rw [herr]
        rfl

/-- C8: if some line k (1-indexed; below 0-indexed as i = k - 1) of the
input does not yield exactly k integer values, the parse fails with
InvalidShape — no Triangle is returned. -/
theorem parse_malformed_fails (lines : List Row)
    (h : ∃ i, i < lines.length ∧ (lines.getD i []).length ≠ i + 1) :
    parse_triangle lines = .error .InvalidShape := by
  obtain ⟨i, hi, hbad⟩ := h
  exact parse_aux lines ⟨[]⟩ i hi (by simpa [Triangle.height] using hbad)

/-- Witness for C8: the single line `1 2 3` yields three values where row
1 must have exactly one, and parsing indeed fails with InvalidShape. -/
theorem parse_malformed_fails_witness :
    (∃ i, i < ([[(1 : Int), 2, 3]] : List Row).length ∧
      (([[(1 : Int), 2, 3]] : List Row).getD i []).length ≠ i + 1) ∧
    parse_triangle [[1, 2, 3]] = .error .InvalidShape :=
  ⟨⟨0, by decide, by decide⟩,
    parse_malformed_fails [[1, 2, 3]] ⟨0, by decide, by decide⟩⟩

/-! ### Characterising the fold accumulator -/


lemma ladder_last :
    ∀ (l : List Row) (b : Row) (n : Nat), ladder n (l ++ [b]) →
      b.length = n + l.length := by
  intro l
  induction l with
  | nil => intro b n h; simpa [ladder] using h.1
  | cons r rs ih =>
      intro b n h
      have := ih b (n + 1) h.2
      simp only [List.length_cons]
      omega

lemma ladder_of_shape :
    ∀ (rows : List Row) (n : Nat),
      (∀ i (h : i < rows.length), (rows.get ⟨i, h⟩).length = n + i) →
      ladder n rows := by
  intro rows
  induction rows with
  | nil => intro n _; trivial
  | cons r rs ih =>
      intro n h
      refine ⟨by simpa using h 0 (by simp), ih (n + 1) ?_⟩
      intro i hi
      have := h (i + 1) (by simpa using Nat.succ_lt_succ hi)
      simpa [Nat.add_comm, Nat.add_assoc, Nat.add_left_comm] using this

lemma triShape_ladder (rows : List Row) (h : TriShape rows) : ladder 1 rows := by
  apply ladder_of_shape
  intro i hi
  have := h i hi
  omega


lemma dp_cons {T : Type} (make_t : Int → T) (combine_t : Int → T → T → T)
    (row : Row) (rest : List Row) (h : rest ≠ []) (c : Nat) :
    dp make_t combine_t (row :: rest) c =
      combine_t (row.getD c 0) (dp make_t combine_t rest c)
        (dp make_t combine_t rest (c + 1)) := by
  match rest with
  | [] => exact absurd rfl h
  | x :: xs => simp [dp]

lemma stepRow_length {T : Type} (combine_t : Int → T → T → T) :
    ∀ (row : List Int) (accum : List T),
      (stepRow combine_t row accum).length = accum.length := by
  intro row
  induction row with
  | nil => intro accum; rfl
  | cons v vs ih =>
      intro accum
      match accum with
      | [] => rfl
      | [a] => rfl
      | a :: a' :: rest => simp [stepRow, ih (a' :: rest)]

lemma stepRow_getD {T : Type} (combine_t : Int → T → T → T) (d : T) :
    ∀ (row : List Int) (accum : List T) (i : Nat),
      i < row.length → row.length < accum.length →
      (stepRow combine_t row accum).getD i d =
        combine_t (row.getD i 0) (accum.getD i d) (accum.getD (i + 1) d) := by
  intro row
  induction row with
  | nil => intro accum i hi _; simp at hi
  | cons v vs ih =>
      intro accum i hi hlen
      match accum with
      | [] => simp at hlen
      | [a] => simp at hlen
      | a :: a' :: rest =>
          match i with
          | 0 => simp [stepRow]
          | j + 1 =>
              have h1 : j < vs.length := by simpa using hi
              have h2 : vs.length < (a' :: rest).length := by
                simp only [List.length_cons] at hlen ⊢
                omega
              simp only [stepRow, List.getD_cons_succ]
              exact ih (a' :: rest) j h1 h2

lemma foldr_stepRow_length {T : Type} (make_t : Int → T)
    (combine_t : Int → T → T → T) (upper : List Row) (bottom : Row) :
    (upper.foldr (fun row accum => stepRow combine_t row accum)
      (bottom.map make_t)).length = bottom.length := by
  induction upper with
  | nil => simp
  | cons r us ih => simpa [stepRow_length] using ih

lemma foldr_stepRow_getD {T : Type} (make_t : Int → T)
    (combine_t : Int → T → T → T) (d : T) :
    ∀ (upper : List Row) (bottom : Row) (n : Nat),
      ladder n (upper ++ [bottom]) → ∀ i, i < n →
      (upper.foldr (fun row accum => stepRow combine_t row accum)
        (bottom.map make_t)).getD i d =
        dp make_t combine_t (upper ++ [bottom]) i := by
  intro upper
  induction upper with
  | nil =>
      intro bottom n hlad i hi
      have hb : bottom.length = n := by simpa [ladder] using hlad.1
      have hib : i < bottom.length := by omega
      have him : i < (bottom.map make_t).length := by simpa using hib
      simp only [List.foldr_nil, List.nil_append, dp]
      rw [List.getD_eq_getElem _ _ him, List.getElem_map,
        List.getD_eq_getElem _ _ hib]
  | cons r us ih =>
      intro bottom n hlad i hi
      have hr : r.length = n := hlad.1
      have hrest : ladder (n + 1) (us ++ [bottom]) := hlad.2
      have hblen : bottom.length = n + 1 + us.length :=
        ladder_last us bottom (n + 1) hrest
      have haccl :
          (us.foldr (fun row accum => stepRow combine_t row accum)
            (bottom.map make_t)).length = bottom.length :=
        foldr_stepRow_length make_t combine_t us bottom
      simp only [List.foldr_cons]
      rw [stepRow_getD combine_t d r _ i (by omega) (by omega)]
      rw [ih bottom (n + 1) hrest i (by omega)]
      rw [ih bottom (n + 1) hrest (i + 1) (by omega)]
      rw [List.cons_append, dp_cons _ _ _ _ (by simp) i]

lemma headD_eq_getD {T : Type} (l : List T) (d : T) : l.headD d = l.getD 0 d := by
  cases l <;> rfl

lemma fold_triangle_ok_dp {T : Type} [Inhabited T] (t : Triangle)
    (make_t : Int → T) (combine_t : Int → T → T → T)
    (hshape : TriShape t.rows_) (hne : t.height ≠ 0) :
    fold_triangle t make_t combine_t = .ok (dp make_t combine_t t.rows_ 0) := by
  have hnil : t.rows_.reverse ≠ [] := by
    simp only [ne_eq, List.reverse_eq_nil_iff]
    intro hn
    exact hne (by simp [Triangle.height, hn])
  obtain ⟨bottom, rest, hrev⟩ := List.exists_cons_of_ne_nil hnil
  have hrows : t.rows_ = rest.reverse ++ [bottom] := by
    have h2 := congrArg List.reverse hrev
    simpa using h2
  have hlad : ladder 1 (rest.reverse ++ [bottom]) := by
    rw [← hrows]
    exact triShape_ladder _ hshape
  unfold fold_triangle
  rw [if_neg hne, hrev]
  show Except.ok ((rest.foldl (fun accum row => stepRow combine_t row accum)
      (bottom.map make_t)).headD default) = _
  have hbridge : rest.foldl (fun accum row => stepRow combine_t row accum)
      (bottom.map make_t)
      = (rest.reverse).foldr (fun row accum => stepRow combine_t row accum)
          (bottom.map make_t) := by
    conv_lhs => rw [← List.reverse_reverse rest]
    rw [List.foldl_reverse]
  rw [hbridge, headD_eq_getD,
    foldr_stepRow_getD make_t combine_t default rest.reverse bottom 1 hlad 0
      Nat.zero_lt_one, ← hrows]

lemma specStepRow_length {T : Type} [Inhabited T] (combine_t : Int → T → T → T)
    (row : Row) (accum : List T) :
    (specStepRow combine_t row accum).length = row.length := by
  simp [specStepRow]

lemma specStepRow_getD {T : Type} [Inhabited T] (combine_t : Int → T → T → T)
    (row : Row) (accum : List T) (i : Nat) (hi : i < row.length) (d : T) :
    (specStepRow combine_t row accum).getD i d =
      combine_t (row.getD i 0) (accum.getD i default)
        (accum.getD (i + 1) default) := by
  unfold specStepRow
  have him : i < ((List.range row.length).map
      (fun i => combine_t (row.getD i 0) (accum.getD i default)
        (accum.getD (i + 1) default))).length := by simpa using hi
  rw [List.getD_eq_getElem _ _ him, List.getElem_map, List.getElem_range]

lemma foldr_specStepRow_length {T : Type} [Inhabited T]
    (make_t : Int → T) (combine_t : Int → T → T → T)
    (upper : List Row) (bottom : Row) (n : Nat)
    (hlad : ladder n (upper ++ [bottom])) :
    (upper.foldr (fun row accum => specStepRow combine_t row accum)
      (bottom.map make_t)).length = n := by
  cases upper with
  | nil =>
      have hb : bottom.length = n := by simpa [ladder] using hlad.1
      simpa using hb
  | cons r us =>
      have hr : r.length = n := hlad.1
      simpa [specStepRow_length] using hr

lemma foldr_specStepRow_getD {T : Type} [Inhabited T]
    (make_t : Int → T) (combine_t : Int → T → T → T) :
    ∀ (upper : List Row) (bottom : Row) (n : Nat),
      ladder n (upper ++ [bottom]) → ∀ i, i < n →
      (upper.foldr (fun row accum => specStepRow combine_t row accum)
        (bottom.map make_t)).getD i default =
        dp make_t combine_t (upper ++ [bottom]) i := by
  intro upper
  induction upper with
  | nil =>
      intro bottom n hlad i hi
      have hb : bottom.length = n := by simpa [ladder] using hlad.1
      have hib : i < bottom.length := by omega
      have him : i < (bottom.map make_t).length := by simpa using hib
      simp only [List.foldr_nil, List.nil_append, dp]
      rw [List.getD_eq_getElem _ _ him, List.getElem_map,
        List.getD_eq_getElem _ _ hib]
  | cons r us ih =>
      intro bottom n hlad i hi
      have hr : r.length = n := hlad.1
      have hrest : ladder (n + 1) (us ++ [bottom]) := hlad.2
      simp only [List.foldr_cons]
      rw [specStepRow_getD combine_t r _ i (by omega) default]
      rw [ih bottom (n + 1) hrest i (by omega)]
      rw [ih bottom (n + 1) hrest (i + 1) (by omega)]
      rw [List.cons_append, dp_cons _ _ _ _ (by simp) i]

lemma fold_triangle_spec_ok_dp {T : Type} [Inhabited T] (t : Triangle)
    (make_t : Int → T) (combine_t : Int → T → T → T)
    (hshape : TriShape t.rows_) (hne : t.height ≠ 0) :
    fold_triangle_spec t make_t combine_t =
      .ok (dp make_t combine_t t.rows_ 0) := by
  have hnil : t.rows_.reverse ≠ [] := by
    simp only [ne_eq, List.reverse_eq_nil_iff]
    intro hn
    exact hne (by simp [Triangle.height, hn])
  obtain ⟨bottom, rest, hrev⟩ := List.exists_cons_of_ne_nil hnil
  have hrows : t.rows_ = rest.reverse ++ [bottom] := by
    have h2 := congrArg List.reverse hrev
    simpa using h2
  have hlad : ladder 1 (rest.reverse ++ [bottom]) := by
    rw [← hrows]
    exact triShape_ladder _ hshape
  unfold fold_triangle_spec
  rw [if_neg hne, hrev]
  show Except.ok ((rest.foldl (fun accum row => specStepRow combine_t row accum)
      (bottom.map make_t)).headD default) = _
  have hbridge : rest.foldl (fun accum row => specStepRow combine_t row accum)
      (bottom.map make_t)
      = (rest.reverse).foldr (fun row accum => specStepRow combine_t row accum)
          (bottom.map make_t) := by
    conv_lhs => rw [← List.reverse_reverse rest]
    rw [List.foldl_reverse]
  rw [hbridge, headD_eq_getD,
    foldr_specStepRow_getD make_t combine_t rest.reverse bottom 1 hlad 0
      Nat.zero_lt_one, ← hrows]

/-! ### The fold computes the greatest path sum -/

lemma dp_max_eq_bestFrom :
    ∀ (rows : List Row) (c : Nat), rows ≠ [] →
      dp (fun i => i) (fun i left right => i + max left right) rows c =
        bestFrom rows c := by
  intro rows
  induction rows with
  | nil => intro c h; exact absurd rfl h
  | cons row rest ih =>
      intro c _
      rcases rest with _ | ⟨x, xs⟩
      · simp [dp, bestFrom]
      · rw [dp_cons _ _ _ _ (by simp) c, ih c (by simp), ih (c + 1) (by simp)]
        rfl

lemma pathValue_le_bestFrom :
    ∀ (rows : List Row) (c : Nat) (moves : List Bool),
      moves.length = rows.length - 1 →
      pathValue rows c moves ≤ bestFrom rows c := by
  intro rows
  induction rows with
  | nil => intro c moves _; simp [pathValue, bestFrom]
  | cons row rest ih =>
      intro c moves hlen
      cases moves with
      | nil =>
          have hr : rest = [] := by
            have h0 : rest.length = 0 := by simpa using hlen.symm
            exact List.eq_nil_of_length_eq_zero h0
          subst hr
          simp [pathValue, bestFrom]
      | cons b ms =>
          have hms : ms.length = rest.length - 1 := by
            simp only [List.length_cons] at hlen
            omega
          have hpv : pathValue (row :: rest) c (b :: ms)
              = row.getD c 0 + pathValue rest (if b then c + 1 else c) ms := by
            simp [pathValue]
          rw [hpv]
          refine add_le_add_left (le_trans (ih (if b then c + 1 else c) ms hms) ?_) _
          cases b with
          | false => simp
          | true => simp

lemma bestFrom_achieved :
    ∀ (rows : List Row) (c : Nat),
      ∃ moves : List Bool, moves.length = rows.length - 1 ∧
        pathValue rows c moves = bestFrom rows c := by
  intro rows
  induction rows with
  | nil => intro c; exact ⟨[], rfl, rfl⟩
  | cons row rest ih =>
      intro c
      rcases rest with _ | ⟨x, xs⟩
      · refine ⟨[], rfl, ?_⟩
        simp [pathValue, bestFrom]
      · rcases le_total (bestFrom (x :: xs) c) (bestFrom (x :: xs) (c + 1)) with hle | hle
        · obtain ⟨ms, hlen, hval⟩ := ih (c + 1)
          refine ⟨true :: ms, ?_, ?_⟩
          · simp only [List.length_cons] at hlen ⊢
            omega
          · have hpv : pathValue (row :: x :: xs) c (true :: ms)
                = row.getD c 0 + pathValue (x :: xs) (c + 1) ms := by
              simp [pathValue]
            rw [hpv, hval,
              show bestFrom (row :: x :: xs) c = row.getD c 0 +
                max (bestFrom (x :: xs) c) (bestFrom (x :: xs) (c + 1)) from rfl,
              max_eq_right hle]
        · obtain ⟨ms, hlen, hval⟩ := ih c
          refine ⟨false :: ms, ?_, ?_⟩
          · simp only [List.length_cons] at hlen ⊢
            omega
          · have hpv : pathValue (row :: x :: xs) c (false :: ms)
                = row.getD c 0 + pathValue (x :: xs) c ms := by
              simp [pathValue]
            rw [hpv, hval,
              show bestFrom (row :: x :: xs) c = row.getD c 0 +
                max (bestFrom (x :: xs) c) (bestFrom (x :: xs) (c + 1)) from rfl,
              max_eq_left hle]

/-- C1: for every non-empty shape-correct Triangle, `max_path` returns
the greatest sum achievable over all apex-to-base paths: it is attained by
some sequence of height-minus-one downward moves, and no such sequence
beats it. -/
theorem max_path_correct (t : Triangle) (hshape : TriShape t.rows_)
    (hne : t.height ≠ 0) :
    ∃ m : Int, max_path t = .ok m ∧
      (∃ moves : List Bool, moves.length = t.height - 1 ∧
        pathValue t.rows_ 0 moves = m) ∧
      (∀ moves : List Bool, moves.length = t.height - 1 →
        pathValue t.rows_ 0 moves ≤ m) := by
  have hrn : t.rows_ ≠ [] := fun hn => hne (by simp [Triangle.height, hn])
  refine ⟨bestFrom t.rows_ 0, ?_, ?_, ?_⟩
  · have hok := fold_triangle_ok_dp t (fun i => i)
      (fun i left right => i + max left right) hshape hne
    unfold max_path
    rw [hok, dp_max_eq_bestFrom t.rows_ 0 hrn]
  · obtain ⟨ms, h1, h2⟩ := bestFrom_achieved t.rows_ 0
    exact ⟨ms, by simpa [Triangle.height] using h1, h2⟩
  · intro moves hm
    exact pathValue_le_bestFrom t.rows_ 0 moves
      (by simpa [Triangle.height] using hm)

/-- Witness for C1: the Project Euler example triangle is shape-correct
and non-empty, so `max_path` on it returns the greatest path sum. -/
theorem max_path_correct_witness :
    TriShape (Triangle.mk [[3], [7, 4], [2, 4, 6], [8, 5, 9, 3]]).rows_ ∧
    (Triangle.mk [[3], [7, 4], [2, 4, 6], [8, 5, 9, 3]]).height ≠ 0 ∧
    (∃ m : Int,
      max_path ⟨[[3], [7, 4], [2, 4, 6], [8, 5, 9, 3]]⟩ = .ok m ∧
      (∃ moves : List Bool,
        moves.length = (Triangle.mk [[3], [7, 4], [2, 4, 6], [8, 5, 9, 3]]).height - 1 ∧
        pathValue [[3], [7, 4], [2, 4, 6], [8, 5, 9, 3]] 0 moves = m) ∧
      (∀ moves : List Bool,
        moves.length = (Triangle.mk [[3], [7, 4], [2, 4, 6], [8, 5, 9, 3]]).height - 1 →
        pathValue [[3], [7, 4], [2, 4, 6], [8, 5, 9, 3]] 0 moves ≤ m)) :=
  ⟨by decide, by decide, max_path_correct _ (by decide) (by decide)⟩

/-- C2: on every non-empty shape-correct Triangle and for every pair of
functions, `fold_triangle` returns exactly the value of the
specification's recurrence (`fold_triangle_spec`). -/
theorem fold_triangle_matches_spec {T : Type} [Inhabited T] (t : Triangle)
    (make_t : Int → T) (combine_t : Int → T → T → T)
    (hshape : TriShape t.rows_) (hne : t.height ≠ 0) :
    fold_triangle t make_t combine_t = fold_triangle_spec t make_t combine_t := by
  rw [fold_triangle_ok_dp t make_t combine_t hshape hne,
    fold_triangle_spec_ok_dp t make_t combine_t hshape hne]

/-- Witness for C2: the implementation fold and the specification
recurrence agree on the example triangle for a non-commutative combine
function, for which stale accumulator entries would matter if read. -/
theorem fold_triangle_matches_spec_witness :
    TriShape (Triangle.mk [[3], [7, 4], [2, 4, 6], [8, 5, 9, 3]]).rows_ ∧
    (Triangle.mk [[3], [7, 4], [2, 4, 6], [8, 5, 9, 3]]).height ≠ 0 ∧
    fold_triangle ⟨[[3], [7, 4], [2, 4, 6], [8, 5, 9, 3]]⟩ (fun v => v)
        (fun v l r => v + l - 2 * r)
      = fold_triangle_spec ⟨[[3], [7, 4], [2, 4, 6], [8, 5, 9, 3]]⟩ (fun v => v)
        (fun v l r => v + l - 2 * r) :=
  ⟨by decide, by decide,
    fold_triangle_matches_spec _ _ _ (by decide) (by decide)⟩

/-! ### The parity-constrained fold never beats the unconstrained one -/

lemma dp_parity_le :
    ∀ (rows : List Row) (n : Nat), ladder n rows → NonnegRows rows →
      ∀ c, c < n →
      0 ≤ dp (fun i => i)
          (fun i left right =>
            i + max (if is_even left then 0 else left)
                    (if is_even right then right else 0)) rows c ∧
      dp (fun i => i)
          (fun i left right =>
            i + max (if is_even left then 0 else left)
                    (if is_even right then right else 0)) rows c ≤
        dp (fun i => i) (fun i left right => i + max left right) rows c := by
  intro rows
  induction rows with
  | nil => intro n _ _ c _; constructor <;> simp [dp]
  | cons row rest ih =>
      intro n hlad hnn c hc
      have hrow : row.length = n := hlad.1
      have hcl : c < row.length := by omega
      have hv : 0 ≤ row.getD c 0 := by
        rw [List.getD_eq_getElem _ _ hcl]
        exact hnn row (by simp) _ (List.getElem_mem hcl)
      rcases rest with _ | ⟨x, xs⟩
      · exact ⟨by simpa [dp] using hv, by simp [dp]⟩
      · have hrest : ladder (n + 1) (x :: xs) := hlad.2
        have hnn' : NonnegRows (x :: xs) := by
          intro r hr y hy
          exact hnn r (List.mem_cons_of_mem row hr) y hy
        obtain ⟨hl0, hl1⟩ := ih (n + 1) hrest hnn' c (by omega)
        obtain ⟨hr0, hr1⟩ := ih (n + 1) hrest hnn' (c + 1) (by omega)
        rw [dp_cons (fun i => i)
            (fun i left right =>
              i + max (if is_even left then 0 else left)
                      (if is_even right then right else 0)) row (x :: xs)
            (by simp) c,
          dp_cons (fun i => i) (fun i left right => i + max left right)
            row (x :: xs) (by simp) c]
        constructor
        · refine add_nonneg hv (le_trans ?_ (le_max_left _ _))
          split
          · exact le_refl 0
          · exact hl0
        · refine add_le_add_left (max_le ?_ ?_) _
          · refine le_trans ?_ (le_max_left _ _)
            split
            · exact le_trans hl0 hl1
            · exact hl1
          · refine le_trans ?_ (le_max_right _ _)
            split
            · exact hr1
            · exact le_trans hr0 hr1


/-- C9: on every non-empty shape-correct Triangle all of whose entries
are nonnegative, the parity-constrained maximum path value
(`max_odd_even_path`) never exceeds the unconstrained maximum path value
(`max_path`). -/
theorem max_odd_even_path_le_max_path (t : Triangle) (hshape : TriShape t.rows_)
    (hnn : NonnegRows t.rows_) (hne : t.height ≠ 0) :
    ∃ a b : Int, max_odd_even_path t = .ok a ∧ max_path t = .ok b ∧ a ≤ b := by
  have hlad : ladder 1 t.rows_ := triShape_ladder _ hshape
  refine ⟨dp (fun i => i)
      (fun i left right =>
        i + max (if is_even left then 0 else left)
                (if is_even right then right else 0)) t.rows_ 0,
    dp (fun i => i) (fun i left right => i + max left right) t.rows_ 0,
    ?_, ?_, ?_⟩
  · exact fold_triangle_ok_dp t (fun i => i)
      (fun i left right =>
        i + max (if is_even left then 0 else left)
                (if is_even right then right else 0)) hshape hne
  · exact fold_triangle_ok_dp t (fun i => i)
      (fun i left right => i + max left right) hshape hne
  · exact (dp_parity_le t.rows_ 1 hlad hnn 0 Nat.zero_lt_one).2

/-- Witness for C9: on the example triangle (all entries nonnegative) the
parity-constrained value is bounded by the unconstrained one. -/
theorem max_odd_even_path_le_max_path_witness :
    TriShape (Triangle.mk [[3], [7, 4], [2, 4, 6], [8, 5, 9, 3]]).rows_ ∧
    NonnegRows (Triangle.mk [[3], [7, 4], [2, 4, 6], [8, 5, 9, 3]]).rows_ ∧
    (Triangle.mk [[3], [7, 4], [2, 4, 6], [8, 5, 9, 3]]).height ≠ 0 ∧
    (∃ a b : Int,
      max_odd_even_path ⟨[[3], [7, 4], [2, 4, 6], [8, 5, 9, 3]]⟩ = .ok a ∧
      max_path ⟨[[3], [7, 4], [2, 4, 6], [8, 5, 9, 3]]⟩ = .ok b ∧ a ≤ b) :=
  ⟨by decide, by decide, by decide,
    max_odd_even_path_le_max_path _ (by decide) (by decide) (by decide)⟩
